/-
  Verification of the DAPHNE multi-threaded vectorized pipeline executor
  (`src/runtime/local/vectorized/MTWrapper.h`) and the test data generator
  (`src/runtime/local/datagen/GenGivenVals.h`) against its specification.

  The C++ code is shallowly embedded: each member function relevant to a
  claim becomes an executable Lean definition over explicit data
  (machine arrays become `List`s, null pointers become `Option`, the
  `/proc/cpuinfo` stream becomes a list of records). Uninitialized array
  cells are modelled as `none` of an `Option` type.
-/
import Mathlib

namespace Daphne

/-- `mlir::daphne::VectorSplit`: how an input is divided across tasks. -/
inductive VectorSplit where
  | ROWS
  | NONE
deriving DecidableEq, Repr

/-- `mlir::daphne::VectorCombine`: how per-task outputs are merged. -/
inductive VectorCombine where
  | ROWS
  | COLS
  | ADD
  | NONE
deriving DecidableEq, Repr

/-- The fields of a `Structure` input that `getInputProperties` reads:
`getNumRows()` and `getNumItems()`. -/
structure InputProps where
  numRows : Nat
  numItems : Nat
deriving DecidableEq, Repr

/-- Embeds `MTWrapperBase::getInputProperties` (MTWrapper.h lines 47-59).
The C++ loops `i` over all inputs; for `splits[i] == ROWS` it takes
`len = max(len, numRows)` and adds `numItems * sizeof(VT)` to
`mem_required`; inputs with other splits are skipped. The parallel arrays
`inputs`/`splits` are given as one zipped list; `elemSize` is
`sizeof(typename DT::VT)`. -/
def getInputProperties (inputs : List (InputProps × VectorSplit)) (elemSize : Nat) : Nat × Nat :=
  inputs.foldl
    (fun acc p =>
      if p.2 = VectorSplit.ROWS then
        (max acc.1 p.1.numRows, acc.2 + p.1.numItems * elemSize)
      else acc)
    (0, 0)

/-- The `numRows` values of the `ROWS`-split inputs, in order (used to state
what `getInputProperties` computes, distinct from its accumulator loop). -/
def rowsSplitRows (inputs : List (InputProps × VectorSplit)) : List Nat :=
  inputs.filterMap (fun p => if p.2 = VectorSplit.ROWS then some p.1.numRows else none)

/-- The `numItems` values of the `ROWS`-split inputs, in order. -/
def rowsSplitItems (inputs : List (InputProps × VectorSplit)) : List Nat :=
  inputs.filterMap (fun p => if p.2 = VectorSplit.ROWS then some p.1.numItems else none)

/-- Embeds the `MTWrapperBase` constructor (MTWrapper.h lines 199-214):
`_numThreads` is `ctx->config.numberOfThreads` when that is `> 0`, else
`std::thread::hardware_concurrency()`; `_numCUDAThreads` (initialized 0)
becomes `ctx->cuda_contexts.size()` when CUDA is used and
`numFunctions > 1`; then `_numCPPThreads = _numThreads` and finally
`_numThreads = _numCPPThreads + _numCUDAThreads`. Returns
`(_numThreads, _numCPPThreads, _numCUDAThreads)`. `numberOfThreads` is a
signed config value. -/
def mtWrapperBaseInit (numberOfThreads : Int) (hwConcurrency : Nat)
    (useCUDA : Bool) (numFunctions : Nat) (numCudaContexts : Nat) : Nat × Nat × Nat :=
  let numThreads := if numberOfThreads > 0 then numberOfThreads.toNat else hwConcurrency
  let numCUDAThreads := if useCUDA ∧ numFunctions > 1 then numCudaContexts else 0
  let numCPPThreads := numThreads
  (numCPPThreads + numCUDAThreads, numCPPThreads, numCUDAThreads)

/-- The matrix produced by `DataObjectFactory::create<DT>(rows, cols, zeroOut)`
inside `allocateOutput`: its shape and whether it was zero-initialized. -/
structure AllocMat where
  rows : Int
  cols : Int
  zeroInit : Bool
deriving DecidableEq, Repr

/-- Embeds `MTWrapperBase::allocateOutput` (MTWrapper.h lines 175-187).
For each output slot `i` the C++ tests
`(*res[i]) == nullptr && outRows[i] != -1 && outCols[i] != -1`; when the
test holds it creates a matrix of shape `outRows[i] x outCols[i]`,
zero-initialized exactly when `combines[i] == VectorCombine::ADD`, and adds
its `bufferSize()` to `mem_required`; otherwise the slot is left as is.
The parallel arrays `res`, `outRows`, `outCols`, `combines` are given as
one zipped list; `bufSize` abstracts `bufferSize()` as a function of the
shape. Returns the updated slots and `mem_required`. -/
def allocateOutput (outs : List (Option AllocMat × Int × Int × VectorCombine))
    (bufSize : Int → Int → Nat) : List (Option AllocMat) × Nat :=
  match outs with
  | [] => ([], 0)
  | (slot, r, c, comb) :: rest =>
    let tail2 := allocateOutput rest bufSize
    if slot = none ∧ r ≠ -1 ∧ c ≠ -1 then
      (some ⟨r, c, comb = VectorCombine.ADD⟩ :: tail2.1, bufSize r c + tail2.2)
    else
      (slot :: tail2.1, tail2.2)

/-- IEEE-754 round-to-nearest, ties to even, of a rational to an integer:
the default rounding applied to a scaled significand. -/
def roundHalfEven (x : ℚ) : ℤ :=
  if x - ⌊x⌋ < 1 / 2 then ⌊x⌋
  else if 1 / 2 < x - ⌊x⌋ then ⌊x⌋ + 1
  else if ⌊x⌋ % 2 = 0 then ⌊x⌋
  else ⌊x⌋ + 1

/-- The exact value of a nonnegative rational after rounding to IEEE-754
binary32 (single precision): the 24-bit significand `q * 2 ^ (23 - e)`
(where `e = ⌊log2 q⌋` is the binade) is rounded to the nearest integer
with ties to even and scaled back. The exponent is not clamped — no
overflow or subnormal handling — which is exact for every value this file
applies it to: `size_t` byte counts (below `2^64 << 2^128`) and quotients
of two such positive counts (above `2^-64 >> 2^-126`). Nonpositive inputs
map to zero. -/
def roundF (q : ℚ) : ℚ :=
  if q ≤ 0 then 0
  else (roundHalfEven (q * 2 ^ (23 - Int.log 2 q)) : ℚ) * 2 ^ (Int.log 2 q - 23)

/-- `static_cast<float>` applied to a machine integer (`size_t`): the
integer rounded to binary32. -/
def toFloatQ (n : Nat) : ℚ := roundF (n : ℚ)

/-- Single-precision division of nonnegative operands: IEEE-754 requires
the correctly rounded value of the exact quotient. -/
def floatDivQ (x y : ℚ) : ℚ := roundF (x / y)

/-- Embeds `MTWrapperBase::cudaPrefetchInputs` (MTWrapper.h lines 158-173).
The C++ computes
`buffer_usage = static_cast<float>(mem_required) / static_cast<float>(budget)`
in single precision and, only when `buffer_usage < 1.0`, touches
`getValuesCUDA()` (the prefetch) for every input with
`splits[i] == ROWS`. The float arithmetic is modelled exactly: both
operands are rounded to binary32 (`toFloatQ`) and the division is
correctly rounded (`floatDivQ`). When `budget = 0` the C++ quotient is
Inf (or NaN for `0/0`), neither of which compares `< 1.0`, so nothing is
prefetched — hence the `0 < budget` guard. Returns, per input, whether it
was prefetched. -/
def cudaPrefetchInputs (splits : List VectorSplit) (memRequired budget : Nat) : List Bool :=
  if 0 < budget ∧ floatDivQ (toFloatQ memRequired) (toFloatQ budget) < 1 then
    splits.map (fun s => s = VectorSplit.ROWS)
  else
    splits.map (fun _ => false)

/-- One processor record of the CPU-info stream (`/proc/cpuinfo`): the values
of its `processor`, `physical id` and `core id` lines, which is what
`get_topology` parses out of each record via `_parse_line`. -/
structure CpuRecord where
  processor : Nat
  physicalId : Nat
  coreId : Nat
deriving DecidableEq, Repr

/-- Embeds the record loop of `MTWrapperBase::get_topology`
(MTWrapper.h lines 92-112). Per record the C++ appends to
`hardware_threads` (on the `processor` line) and to `physical_ids` (on the
`physical id` line); on the `core id` line it counts, over the earlier
indices `i < index`, how many satisfy
`core_ids[i] == value && physical_ids[i] == physical_ids[index]`
(note `physical_ids` already holds the current record's entry at `index`,
while `core_ids` does not yet), appends the core id, appends
`hardware_threads[index]` to `unique_threads` when the count is zero, and
increments `index`. Returns `(physical_ids, unique_threads)`. -/
def getTopologyLoop (records : List CpuRecord) (hw phys cores uniq : List Nat)
    (index : Nat) : List Nat × List Nat :=
  match records with
  | [] => (phys, uniq)
  | r :: rest =>
    getTopologyLoop rest (hw ++ [r.processor]) (phys ++ [r.physicalId]) (cores ++ [r.coreId])
      (if (List.range index).countP
            (fun i => decide (cores.getD i 0 = r.coreId ∧
              (phys ++ [r.physicalId]).getD i 0 = (phys ++ [r.physicalId]).getD index 0)) = 0
       then uniq ++ [(hw ++ [r.processor]).getD index 0]
       else uniq)
      (index + 1)

/-- Embeds `MTWrapperBase::get_topology` on an already-opened CPU-info
stream: all accumulators start empty and `index` starts at 0. -/
def get_topology (records : List CpuRecord) : List Nat × List Nat :=
  getTopologyLoop records [] [] [] [] 0

/-- The specification's characterization of `uniqueHwThreads`: a processor
is added iff no earlier processor with the same `(physical id, core id)`
pair has been seen, in record order. Stated independently of the loop so
the loop can be proved to refine it; `seen` is the list of pairs of the
records already processed. -/
def uniqueThreadsSpec (records : List CpuRecord) (seen : List (Nat × Nat)) : List Nat :=
  match records with
  | [] => []
  | r :: rest =>
    (if (r.physicalId, r.coreId) ∈ seen then [] else [r.processor])
      ++ uniqueThreadsSpec rest (seen ++ [(r.physicalId, r.coreId)])

/-- Embeds the file handling at the top of `get_topology`
(MTWrapper.h lines 88-93): `fopen` may fail (`none`). On failure the C++
prints "Error opening file." but does not return; it then calls `fgets` on
the NULL `FILE*`, which is undefined behavior — modelled as `none`
(no result is produced). On success the record loop runs. -/
def get_topology_io (file : Option (List CpuRecord)) : Option (List Nat × List Nat) :=
  match file with
  | none => none
  | some records => some (get_topology records)

/-- Modelled from the spec: the fallback the specification prescribes when
the CPU-info source is unavailable — one socket (physical id 0 for every
hardware thread) and one hardware thread per reported concurrent thread
count. No such fallback exists in MTWrapper.h. -/
def topologyFallback (hwConcurrency : Nat) : List Nat × List Nat :=
  (List.replicate hwConcurrency 0, List.range hwConcurrency)

/-- A per-task CSR output fragment: local `values`, `colIdxs` and
`rowOffsets` arrays (the latter of length `numRows + 1`). -/
structure CSRFrag (VT : Type) where
  numRows : Nat
  values : List VT
  colIdxs : List Nat
  rowOffsets : List Nat
deriving DecidableEq, Repr

/-- `nnz` of a CSR fragment: the number of stored values. -/
def CSRFrag.nnz {VT : Type} (f : CSRFrag VT) : Nat := f.values.length

/-- Per-row nonzero counts of a CSR fragment, derived from its local
`rowOffsets` (adjacent differences). -/
def perRowNNZ {VT : Type} (f : CSRFrag VT) : List Nat :=
  (f.rowOffsets.zip f.rowOffsets.tail).map (fun p => p.2 - p.1)

/-- Embeds `MTWrapper<CSRMatrix<VT>>::combineOutputs`
(MTWrapper.h lines 266-267). Its body in the source is empty (`{}`), with
`numOutputs` and `combines` marked `[[maybe_unused]]`: the function
changes nothing. Returns the output-slot arrays `(res, res_cuda)`
unchanged. -/
def combineOutputsCSR {VT : Type} (res res_cuda : List (Option (CSRFrag VT)))
    (_numOutputs : Nat) (_combines : List VectorCombine) :
    List (Option (CSRFrag VT)) × List (Option (CSRFrag VT)) :=
  (res, res_cuda)

/-- Modelled from the spec: the CSR `ROWS` combination, which in the source
is performed by the vectorized data sink (`VectorizedDataSink.h`, not under
`src/`) rather than by `combineOutputs`. Per the spec it sums `nnz` across
tasks to size the final value/column arrays, copies each task's values and
column indices into its slot, and rebuilds `rowOffsets` as the prefix sum
of per-row nnz, with per-row nnz computed from each task's local
rowOffsets. -/
def csrRowsCombine {VT : Type} (tasks : List (CSRFrag VT)) : CSRFrag VT :=
  { numRows := (tasks.map (fun t => t.numRows)).sum
    values := (tasks.map (fun t => t.values)).flatten
    colIdxs := (tasks.map (fun t => t.colIdxs)).flatten
    rowOffsets := List.scanl (· + ·) 0 ((tasks.map perRowNNZ).flatten) }

/-- A dense matrix as produced by `GenGivenVals<DenseMatrix, VT>::generate`:
row-major contiguous values. -/
structure DenseMat (VT : Type) where
  numRows : Nat
  numCols : Nat
  values : List VT
deriving DecidableEq, Repr

/-- Embeds `GenGivenVals<DenseMatrix, VT>::generate`
(GenGivenVals.h lines 81-91): `numCols = numCells / numRows`, and the
`memcpy` makes the value buffer exactly the given element vector. -/
def denseGenerate {VT : Type} (numRows : Nat) (elements : List VT) : DenseMat VT :=
  { numRows := numRows, numCols := elements.length / numRows, values := elements }

/-- The element of a dense matrix at row `i`, column `j`: row-major index
`i * numCols + j` into the value buffer. -/
def DenseMat.entry {VT : Type} [Zero VT] (m : DenseMat VT) (i j : Nat) : VT :=
  m.values.getD (i * m.numCols + j) (0 : VT)

/-- A CSR matrix as produced by `GenGivenVals<CSRMatrix, VT>::generate`.
The buffers come from `DataObjectFactory::create` with `zeroInit = false`,
so cells the generator never writes are uninitialized: `rowOffsets` cells
are `Option Nat`, with `none` for an uninitialized cell. -/
structure CSRMat (VT : Type) where
  numRows : Nat
  numCols : Nat
  values : List VT
  colIdxs : List Nat
  rowOffsets : List (Option Nat)
deriving DecidableEq, Repr

/-- Embeds the element loop of `GenGivenVals<CSRMatrix, VT>::generate`
(GenGivenVals.h lines 115-126). For each element `v`: if `v != 0` it
writes `values[pos] = v`, `colIdxs[pos] = colIdx` and increments `pos`;
then it increments `colIdx`, and when `colIdx == numCols` it resets
`colIdx` to 0 and writes `rowOffsets[rowIdx++ + 1] = pos`. The `values`
and `colIdxs` buffers are written sequentially at `pos`, so they are
modelled as growing lists whose length is `pos` (both start empty with
`pos = 0` and grow in lockstep with `pos`); `rowOffsets` is a fixed-size
buffer written by `List.set`. -/
def csrGenLoop {VT : Type} [Zero VT] [DecidableEq VT] (numCols : Nat) :
    List VT → List VT → List Nat → List (Option Nat) → Nat → Nat →
    List VT × List Nat × List (Option Nat)
  | [], values, colIdxs, rowOffsets, _, _ => (values, colIdxs, rowOffsets)
  | v :: rest, values, colIdxs, rowOffsets, colIdx, rowIdx =>
    let values2 := if v ≠ 0 then values ++ [v] else values
    let colIdxs2 := if v ≠ 0 then colIdxs ++ [colIdx] else colIdxs
    if colIdx + 1 = numCols then
      csrGenLoop numCols rest values2 colIdxs2
        (rowOffsets.set (rowIdx + 1) (some values2.length)) 0 (rowIdx + 1)
    else
      csrGenLoop numCols rest values2 colIdxs2 rowOffsets (colIdx + 1) rowIdx

/-- Embeds `GenGivenVals<CSRMatrix, VT>::generate`
(GenGivenVals.h lines 97-128): `numCols = numCells / numRows`, the
`rowOffsets` buffer of length `numRows + 1` starts uninitialized except
for `rowOffsets[0] = 0`, and the element loop fills the rest. -/
def csrGenerate {VT : Type} [Zero VT] [DecidableEq VT] (numRows : Nat)
    (elements : List VT) : CSRMat VT :=
  let numCols := elements.length / numRows
  let initOffsets := (List.replicate (numRows + 1) (none : Option Nat)).set 0 (some 0)
  let r := csrGenLoop numCols elements [] [] initOffsets 0 0
  { numRows := numRows, numCols := numCols,
    values := r.1, colIdxs := r.2.1, rowOffsets := r.2.2 }

/-- The column indices, in row-major order, of the nonzero elements of a
row-major element vector with `numCols` columns, starting at flat
position `p`: the claim's "correct column indices" (`position % numCols`). -/
def nzColsMod {VT : Type} [Zero VT] [DecidableEq VT] (numCols : Nat) (p : Nat) :
    List VT → List Nat
  | [] => []
  | v :: rest => (if v ≠ 0 then [p % numCols] else []) ++ nzColsMod numCols (p + 1) rest

/-- The column indices of the nonzero elements of one row (no wraparound),
starting at column `c`: what the generator writes while scanning one row. -/
def nzColsFrom {VT : Type} [Zero VT] [DecidableEq VT] (c : Nat) : List VT → List Nat
  | [] => []
  | v :: rest => (if v ≠ 0 then [c] else []) ++ nzColsFrom (c + 1) rest

/-- The `(value, colIdx)` pairs of the nonzero elements of one row,
starting at column `c`. -/
def nzPairs {VT : Type} [Zero VT] [DecidableEq VT] (c : Nat) : List VT → List (VT × Nat)
  | [] => []
  | v :: rest => (if v ≠ 0 then [(v, c)] else []) ++ nzPairs (c + 1) rest

/-- The effect of the generator's row-boundary writes on the `rowOffsets`
buffer: processing `n` rows of width `numCols` from `elements`, with `base`
nonzeros already written, sets cell `rowIdx + k + 1` to the running nonzero
count after row `k`, for `k < n`. -/
def setOffsets {VT : Type} [Zero VT] [DecidableEq VT] (numCols : Nat) :
    Nat → List (Option Nat) → Nat → Nat → List VT → List (Option Nat)
  | 0, ros, _, _, _ => ros
  | n + 1, ros, rowIdx, base, elements =>
    let base2 := base + ((elements.take numCols).filter (fun v => v ≠ 0)).length
    setOffsets numCols n (ros.set (rowIdx + 1) (some base2)) (rowIdx + 1) base2
      (elements.drop numCols)

/-- Well-formedness of a per-task CSR fragment: `rowOffsets` has length
`numRows + 1`, starts at 0, is nondecreasing, and ends at `nnz`; the
column-index array is as long as the value array. -/
def CSRFrag.WF {VT : Type} (f : CSRFrag VT) : Prop :=
  f.rowOffsets.length = f.numRows + 1 ∧
  f.rowOffsets.head? = some 0 ∧
  f.rowOffsets.Chain' (· ≤ ·) ∧
  f.rowOffsets.getLast? = some f.nnz ∧
  f.colIdxs.length = f.values.length

/-- Rows 0-1 of the specification's 5x4 CSR scenario: nonzeros at
`(0,1) = 1`, `(1,0) = 2`, `(1,3) = 3`. -/
def csrFragA : CSRFrag Int :=
  { numRows := 2, values := [1, 2, 3], colIdxs := [1, 0, 3], rowOffsets := [0, 1, 3] }

/-- Rows 2-4 of the specification's 5x4 CSR scenario: nonzeros at
`(3,2) = 4`, `(4,0) = 5`, `(4,1) = 6`. -/
def csrFragB : CSRFrag Int :=
  { numRows := 3, values := [4, 5, 6], colIdxs := [2, 0, 1], rowOffsets := [0, 0, 1, 3] }

/-- The element vector of the specification's 5x4 CSR scenario in
row-major order: nonzeros at `(0,1)=1`, `(1,0)=2`, `(1,3)=3`, `(3,2)=4`,
`(4,0)=5`, `(4,1)=6`. -/
def csrExampleElements : List Int :=
  [0, 1, 0, 0, 2, 0, 0, 3, 0, 0, 0, 0, 0, 0, 4, 0, 5, 6, 0, 0]

/-- Looks a column index up in a row segment of `(value, colIdx)` pairs,
returning 0 when absent: how a reader recovers a CSR entry. -/
def lookupCol {VT : Type} [Zero VT] : List (VT × Nat) → Nat → VT
  | [], _ => 0
  | (v, c) :: rest, j => if c = j then v else lookupCol rest j

/-- The element of a CSR matrix at row `i`, column `j`, read the standard
way: the segment of `(value, colIdx)` pairs between `rowOffsets[i]` and
`rowOffsets[i+1]` is scanned for column `j`; 0 if absent, and 0 if either
row offset is uninitialized. -/
def CSRMat.entry {VT : Type} [Zero VT] (m : CSRMat VT) (i j : Nat) : VT :=
  match m.rowOffsets.getD i none, m.rowOffsets.getD (i + 1) none with
  | some lo, some hi => lookupCol (((m.values.zip m.colIdxs).drop lo).take (hi - lo)) j
  | _, _ => 0

/-! Theorems. Shared helper lemmas come first, then one theorem per claim
(with a witness or counterexample where required). -/

theorem getInputProperties_foldl (elemSize : Nat) (l : List (InputProps × VectorSplit)) :
    ∀ a b : Nat,
    l.foldl
      (fun acc p =>
        if p.2 = VectorSplit.ROWS then
          (max acc.1 p.1.numRows, acc.2 + p.1.numItems * elemSize)
        else acc) (a, b)
      = (max a ((rowsSplitRows l).foldr max 0),
         b + ((rowsSplitItems l).map (fun n => n * elemSize)).sum) := by
  induction l with
  | nil => intro a b; simp [rowsSplitRows, rowsSplitItems]
  | cons p rest ih =>
    intro a b
    by_cases h : p.2 = VectorSplit.ROWS
    · simp only [List.foldl_cons, h, if_pos]
      rw [ih]
      simp [rowsSplitRows, rowsSplitItems, h, max_assoc, Nat.add_assoc]
    · simp only [List.foldl_cons, h, if_neg, ite_false]
      rw [ih]
      simp [rowsSplitRows, rowsSplitItems, h]

/-- C6: `getInputProperties` returns `len` equal to the largest `numRows`
among the `ROWS`-split inputs (0 when there is none) and `memRequired`
equal to the sum, over `ROWS`-split inputs, of `numItems` times the
element size; `NONE`-split inputs contribute to neither (they are absent
from `rowsSplitRows`/`rowsSplitItems`). -/
theorem c6_input_properties (inputs : List (InputProps × VectorSplit)) (elemSize : Nat) :
    (getInputProperties inputs elemSize).1 = (rowsSplitRows inputs).foldr max 0 ∧
    (getInputProperties inputs elemSize).2
      = ((rowsSplitItems inputs).map (fun n => n * elemSize)).sum := by
  unfold getInputProperties
  rw [getInputProperties_foldl]
  simp

/-- C7: on construction, when the configured `numberOfThreads` is positive
the CPU worker count `_numCPPThreads` equals it, and when it is 0 the CPU
worker count equals the hardware's reported concurrent thread count. -/
theorem c7_thread_count (numberOfThreads : Int) (hwConcurrency : Nat)
    (useCUDA : Bool) (numFunctions : Nat) (numCudaContexts : Nat) :
    (0 < numberOfThreads →
      (mtWrapperBaseInit numberOfThreads hwConcurrency useCUDA numFunctions
        numCudaContexts).2.1 = numberOfThreads.toNat) ∧
    (numberOfThreads = 0 →
      (mtWrapperBaseInit numberOfThreads hwConcurrency useCUDA numFunctions
        numCudaContexts).2.1 = hwConcurrency) := by
  constructor
  · intro h
    simp [mtWrapperBaseInit, h]
  · intro h
    subst h
    simp [mtWrapperBaseInit]

/-- Witness for C7 at concrete inputs: configured 4 threads gives 4 CPU
workers; configured 0 with 8 reported hardware threads gives 8. -/
theorem c7_thread_count_witness :
    (mtWrapperBaseInit 4 8 false 1 0).2.1 = 4 ∧
    (mtWrapperBaseInit 0 8 true 3 2).2.1 = 8 :=
  ⟨(c7_thread_count 4 8 false 1 0).1 (by norm_num),
   (c7_thread_count 0 8 true 3 2).2 rfl⟩

theorem allocateOutput_getD (bufSize : Int → Int → Nat)
    (pre post : List (Option AllocMat × Int × Int × VectorCombine))
    (slot : Option AllocMat) (r c : Int) (comb : VectorCombine) :
    (allocateOutput (pre ++ (slot, r, c, comb) :: post) bufSize).1.getD pre.length none
      = if slot = none ∧ r ≠ -1 ∧ c ≠ -1
        then some ⟨r, c, comb = VectorCombine.ADD⟩
        else slot := by
  induction pre with
  | nil =>
    simp only [List.nil_append, List.length_nil, allocateOutput]
    split
    · rfl
    · rfl
  | cons q pre ih =>
    obtain ⟨s2, r2, c2, comb2⟩ := q
    simp only [List.cons_append, List.length_cons, allocateOutput]
    split <;> simpa using ih

/-- C4 counterexample to the claim as stated: with a null slot,
`outRows = -2` and `outCols = 3`, `allocateOutput` does allocate, although
the claim's condition `outRows >= 0` fails (the code tests `!= -1`, not
`>= 0`). -/
theorem c4_counterexample :
    ((allocateOutput [(none, -2, 3, VectorCombine.NONE)] (fun _ _ => 0)).1.getD 0
        none).isSome = true ∧
    ¬ ((-2 : Int) ≥ 0) := by decide

/-- C4 (amended): for every output index `i`, `allocateOutput` puts a fresh
matrix of shape `outRows[i] x outCols[i]` into slot `i` iff the slot is
null and `outRows[i] ≠ -1` and `outCols[i] ≠ -1`, and the fresh matrix is
zero-initialized iff `combines[i]` is `ADD`; otherwise the slot keeps its
old value. Index `i` is `pre.length` in the decomposition
`pre ++ (slot, outRows, outCols, combine) :: post`. -/
theorem c4_allocate_output (bufSize : Int → Int → Nat)
    (pre post : List (Option AllocMat × Int × Int × VectorCombine))
    (slot : Option AllocMat) (r c : Int) (comb : VectorCombine) :
    (allocateOutput (pre ++ (slot, r, c, comb) :: post) bufSize).1.getD pre.length none
      = if slot = none ∧ r ≠ -1 ∧ c ≠ -1
        then some ⟨r, c, comb = VectorCombine.ADD⟩
        else slot :=
  allocateOutput_getD bufSize pre post slot r c comb

/-- C8 counterexample to the claim as stated: a null slot with negative
`outRows = -2` does not remain null — the code allocates because it only
tests `!= -1`. -/
theorem c8_counterexample :
    (allocateOutput [(none, -2, 3, VectorCombine.ROWS)] (fun _ _ => 0)).1.getD 0 none
        ≠ none ∧
    (-2 : Int) < 0 := by decide

/-- C8 (amended): `allocateOutput` leaves every already-non-null slot
unchanged, and every null slot whose `outRows` or `outCols` is the unknown
marker `-1` remains null. -/
theorem c8_allocate_frame (bufSize : Int → Int → Nat)
    (pre post : List (Option AllocMat × Int × Int × VectorCombine))
    (slot : Option AllocMat) (r c : Int) (comb : VectorCombine) :
    (slot ≠ none →
      (allocateOutput (pre ++ (slot, r, c, comb) :: post) bufSize).1.getD pre.length none
        = slot) ∧
    (slot = none → (r = -1 ∨ c = -1) →
      (allocateOutput (pre ++ (slot, r, c, comb) :: post) bufSize).1.getD pre.length none
        = none) := by
  constructor
  · intro hs
    rw [allocateOutput_getD]
    rw [if_neg]
    rintro ⟨h1, -, -⟩
    exact hs h1
  · intro hs hrc
    rw [allocateOutput_getD]
    rw [if_neg]
    · exact hs
    · rintro ⟨-, h2, h3⟩
      rcases hrc with h | h
      · exact h2 h
      · exact h3 h

/-- Witness for C8 at concrete inputs: a pre-filled slot survives, and a
null slot with `outRows = -1` stays null. -/
theorem c8_allocate_frame_witness :
    (allocateOutput
        [(some ⟨2, 3, false⟩, 5, 5, VectorCombine.ROWS),
         (none, -1, 7, VectorCombine.ROWS)] (fun _ _ => 4)).1.getD 0 none
      = some ⟨2, 3, false⟩ ∧
    (allocateOutput
        [(some ⟨2, 3, false⟩, 5, 5, VectorCombine.ROWS),
         (none, -1, 7, VectorCombine.ROWS)] (fun _ _ => 4)).1.getD 1 none
      = none :=
  ⟨(c8_allocate_frame (fun _ _ => 4) [] [(none, -1, 7, VectorCombine.ROWS)]
      (some ⟨2, 3, false⟩) 5 5 VectorCombine.ROWS).1 (by simp),
   (c8_allocate_frame (fun _ _ => 4) [(some ⟨2, 3, false⟩, 5, 5, VectorCombine.ROWS)] []
      none (-1) 7 VectorCombine.ROWS).2 rfl (Or.inl rfl)⟩

theorem roundHalfEven_intCast (z : ℤ) : roundHalfEven (z : ℚ) = z := by
  unfold roundHalfEven
  rw [Int.floor_intCast, if_pos (by norm_num)]

theorem roundHalfEven_le (x : ℚ) : (roundHalfEven x : ℚ) ≤ x + 1 / 2 := by
  have h1 := Int.floor_le x
  have h2 := Int.lt_floor_add_one x
  unfold roundHalfEven
  split_ifs with ha hb hc
  · linarith
  · push_cast
    linarith
  · linarith
  · push_cast
    linarith

theorem roundHalfEven_ge (x : ℚ) : x - 1 / 2 ≤ (roundHalfEven x : ℚ) := by
  have h1 := Int.floor_le x
  have h2 := Int.lt_floor_add_one x
  unfold roundHalfEven
  split_ifs with ha hb hc
  · linarith
  · push_cast
    linarith
  · linarith
  · push_cast
    linarith

theorem int_ge_of_half (z c : ℤ) (h : (c : ℚ) - 1 / 2 ≤ (z : ℚ)) : c ≤ z := by
  by_contra hcon
  push_neg at hcon
  have h2 : z ≤ c - 1 := by omega
  have h3 : (z : ℚ) ≤ (c : ℚ) - 1 := by exact_mod_cast h2
  linarith

theorem int_le_of_half (z c : ℤ) (h : (z : ℚ) ≤ (c : ℚ) + 1 / 2) : z ≤ c := by
  by_contra hcon
  push_neg at hcon
  have h2 : c + 1 ≤ z := by omega
  have h3 : (c : ℚ) + 1 ≤ (z : ℚ) := by exact_mod_cast h2
  linarith

theorem roundF_ge_one (q : ℚ) (h1 : 1 ≤ q) : 1 ≤ roundF q := by
  have h0 : (0 : ℚ) < q := lt_of_lt_of_le one_pos h1
  unfold roundF
  rw [if_neg (not_le.mpr h0)]
  have hle : (2 : ℚ) ^ Int.log 2 q ≤ q := Int.zpow_log_le_self (by norm_num) h0
  have hepos : (0 : ℤ) ≤ Int.log 2 q := by
    rw [Int.log_of_one_le_right 2 h1]
    exact Int.ofNat_nonneg _
  have hspos : (0 : ℚ) < 2 ^ ((23 : ℤ) - Int.log 2 q) := by positivity
  have hs : (8388608 : ℚ) ≤ q * 2 ^ ((23 : ℤ) - Int.log 2 q) := by
    calc (8388608 : ℚ) = 2 ^ (23 : ℤ) := by norm_num
      _ = 2 ^ Int.log 2 q * 2 ^ ((23 : ℤ) - Int.log 2 q) := by
          rw [← zpow_add₀ (by norm_num : (2 : ℚ) ≠ 0)]
          congr 1
          omega
      _ ≤ q * 2 ^ ((23 : ℤ) - Int.log 2 q) :=
          mul_le_mul_of_nonneg_right hle (le_of_lt hspos)
  have hz := roundHalfEven_ge (q * 2 ^ ((23 : ℤ) - Int.log 2 q))
  have hz23 : (8388608 : ℤ) ≤ roundHalfEven (q * 2 ^ ((23 : ℤ) - Int.log 2 q)) := by
    apply int_ge_of_half
    push_cast
    linarith
  calc (1 : ℚ) ≤ 2 ^ Int.log 2 q := one_le_zpow₀ (by norm_num) hepos
    _ = 8388608 * 2 ^ (Int.log 2 q - 23) := by
        rw [show (8388608 : ℚ) = 2 ^ (23 : ℤ) by norm_num,
          ← zpow_add₀ (by norm_num : (2 : ℚ) ≠ 0)]
        congr 1
        omega
    _ ≤ (roundHalfEven (q * 2 ^ ((23 : ℤ) - Int.log 2 q)) : ℚ)
          * 2 ^ (Int.log 2 q - 23) := by
        apply mul_le_mul_of_nonneg_right _ (by positivity)
        exact_mod_cast hz23

theorem roundF_lt_one (q : ℚ) (h0 : 0 < q) (h : q ≤ 1 - 2 ^ (-24 : ℤ)) :
    roundF q < 1 := by
  unfold roundF
  rw [if_neg (not_le.mpr h0)]
  have hq1 : q < 1 := lt_of_le_of_lt h (by norm_num)
  have heneg : Int.log 2 q < 0 := by
    rw [Int.log_of_right_le_one 2 (le_of_lt hq1)]
    have hinv : (1 : ℚ) < q⁻¹ := one_lt_inv₀ h0 |>.mpr hq1
    have hceil : 1 < ⌈q⁻¹⌉₊ := Nat.lt_ceil.mpr (by exact_mod_cast hinv)
    have hclog : 0 < Nat.clog 2 ⌈q⁻¹⌉₊ := Nat.clog_pos (by norm_num) (by omega)
    omega
  have hlt : q < (2 : ℚ) ^ (Int.log 2 q + 1) :=
    Int.lt_zpow_succ_log_self (by norm_num) q
  have hspos : (0 : ℚ) < 2 ^ ((23 : ℤ) - Int.log 2 q) := by positivity
  have hzle := roundHalfEven_le (q * 2 ^ ((23 : ℤ) - Int.log 2 q))
  rcases lt_or_le (Int.log 2 q) (-1) with he2 | he1
  · -- binade at or below 2^(-2): the rounded value is at most 2^(e+1) ≤ 1/2
    have hs : q * 2 ^ ((23 : ℤ) - Int.log 2 q) < 16777216 := by
      calc q * 2 ^ ((23 : ℤ) - Int.log 2 q)
          < 2 ^ (Int.log 2 q + 1) * 2 ^ ((23 : ℤ) - Int.log 2 q) :=
            mul_lt_mul_of_pos_right hlt hspos
        _ = 2 ^ (24 : ℤ) := by
            rw [← zpow_add₀ (by norm_num : (2 : ℚ) ≠ 0)]
            congr 1
            omega
        _ = 16777216 := by norm_num
    have hz24 : roundHalfEven (q * 2 ^ ((23 : ℤ) - Int.log 2 q)) ≤ 16777216 := by
      apply int_le_of_half
      push_cast
      linarith
    calc (roundHalfEven (q * 2 ^ ((23 : ℤ) - Int.log 2 q)) : ℚ)
          * 2 ^ (Int.log 2 q - 23)
        ≤ 16777216 * 2 ^ (Int.log 2 q - 23) := by
          apply mul_le_mul_of_nonneg_right _ (by positivity)
          exact_mod_cast hz24
      _ = 2 ^ (Int.log 2 q + 1) := by
          rw [show (16777216 : ℚ) = 2 ^ (24 : ℤ) by norm_num,
            ← zpow_add₀ (by norm_num : (2 : ℚ) ≠ 0)]
          congr 1
          omega
      _ ≤ 2 ^ (-1 : ℤ) := zpow_le_zpow_right₀ (by norm_num) (by omega)
      _ < 1 := by norm_num
  · -- binade [1/2, 1): q ≤ 1 - 2^(-24) keeps the significand at most 2^24 - 1
    have he : Int.log 2 q = -1 := by omega
    rw [he] at hzle ⊢
    rw [show ((23 : ℤ) - (-1)) = 24 by norm_num] at hzle ⊢
    rw [show ((-1 : ℤ) - 23) = (-24 : ℤ) by norm_num]
    have hs1 : q * 2 ^ (24 : ℤ) ≤ 16777215 := by
      calc q * 2 ^ (24 : ℤ)
          ≤ (1 - 2 ^ (-24 : ℤ)) * 2 ^ (24 : ℤ) :=
            mul_le_mul_of_nonneg_right h (by positivity)
        _ = 16777215 := by norm_num
    have hz1 : roundHalfEven (q * 2 ^ (24 : ℤ)) ≤ 16777215 := by
      apply int_le_of_half
      rw [show ((16777215 : ℤ) : ℚ) = 16777215 by norm_num]
      linarith
    calc (roundHalfEven (q * 2 ^ (24 : ℤ)) : ℚ) * 2 ^ (-24 : ℤ)
        ≤ 16777215 * 2 ^ (-24 : ℤ) := by
          apply mul_le_mul_of_nonneg_right _ (by positivity)
          exact_mod_cast hz1
      _ < 1 := by norm_num

theorem toFloatQ_exact (n : Nat) (h : n ≤ 2 ^ 24) : toFloatQ n = n := by
  unfold toFloatQ
  rcases Nat.eq_zero_or_pos n with rfl | hn0
  · simp [roundF]
  unfold roundF
  rw [if_neg (not_le.mpr (by exact_mod_cast hn0))]
  have hlog : Int.log 2 (n : ℚ) = (Nat.log 2 n : ℤ) := Int.log_natCast 2 n
  rcases Nat.lt_or_ge n (2 ^ 24) with hlt | hge
  · have hk23 : Nat.log 2 n ≤ 23 := by
      have := Nat.log_lt_of_lt_pow (by omega) hlt
      omega
    have hcast : (n : ℚ) * 2 ^ ((23 : ℤ) - Int.log 2 (n : ℚ))
        = (((n * 2 ^ (23 - Nat.log 2 n) : ℕ) : ℤ) : ℚ) := by
      rw [hlog]
      push_cast
      rw [show ((23 : ℤ) - (Nat.log 2 n : ℤ)) = ((23 - Nat.log 2 n : ℕ) : ℤ) by omega,
        zpow_natCast]
    rw [hcast, roundHalfEven_intCast, hlog]
    push_cast
    rw [show ((Nat.log 2 n : ℤ) - 23) = -((23 - Nat.log 2 n : ℕ) : ℤ) by omega,
      zpow_neg, zpow_natCast]
    rw [mul_assoc, mul_inv_cancel₀ (by positivity), mul_one]
  · have hn : n = 2 ^ 24 := by omega
    subst hn
    have hlog2 : Int.log 2 ((2 ^ 24 : ℕ) : ℚ) = 24 := by
      rw [Int.log_natCast, Nat.log_pow (by norm_num : 1 < 2)]
      norm_num
    rw [hlog2,
      show ((2 ^ 24 : ℕ) : ℚ) * 2 ^ ((23 : ℤ) - 24) = ((8388608 : ℤ) : ℚ) by
        push_cast
        norm_num,
      roundHalfEven_intCast]
    push_cast
    norm_num

theorem toFloatQ_pow30 : toFloatQ (2 ^ 30) = ((2 ^ 30 : ℕ) : ℚ) := by
  unfold toFloatQ roundF
  rw [if_neg (by push_cast; norm_num)]
  have hlog : Int.log 2 ((2 ^ 30 : ℕ) : ℚ) = 30 := by
    rw [Int.log_natCast, Nat.log_pow (by norm_num : 1 < 2)]
    norm_num
  rw [hlog,
    show ((2 ^ 30 : ℕ) : ℚ) * 2 ^ ((23 : ℤ) - 30) = ((8388608 : ℤ) : ℚ) by
      push_cast
      norm_num,
    roundHalfEven_intCast]
  push_cast
  norm_num

theorem toFloatQ_pow30_sub_one : toFloatQ (2 ^ 30 - 1) = ((2 ^ 30 : ℕ) : ℚ) := by
  unfold toFloatQ roundF
  rw [if_neg (by push_cast; norm_num)]
  have hlog : Int.log 2 ((2 ^ 30 - 1 : ℕ) : ℚ) = 29 := by
    have h29 : Nat.log 2 (2 ^ 30 - 1) = 29 :=
      @Nat.log_eq_of_pow_le_of_lt_pow 2 29 (2 ^ 30 - 1) (by norm_num) (by norm_num)
    rw [Int.log_natCast, h29]
    norm_num
  rw [hlog,
    show ((2 ^ 30 - 1 : ℕ) : ℚ) * 2 ^ ((23 : ℤ) - 29) = 16777215 + 63 / 64 by
      push_cast
      norm_num]
  have hfl : ⌊(16777215 + 63 / 64 : ℚ)⌋ = 16777215 := by
    rw [Int.floor_eq_iff]
    constructor
    · norm_num
    · norm_num
  have hround : roundHalfEven (16777215 + 63 / 64) = 16777216 := by
    unfold roundHalfEven
    rw [hfl, if_neg (by norm_num), if_pos (by norm_num)]
    norm_num
  rw [hround]
  push_cast
  norm_num

/-- C5 counterexample to the claim as stated: at `memRequired = budget = 8`
the single-precision buffer-usage ratio is exactly 1.0, not `< 1.0`, so
the `ROWS`-split input is not prefetched although `memRequired ≤ budget`;
moreover float rounding pins the ratio to 1.0 even strictly below the
budget: at `memRequired = 2^30 - 1, budget = 2^30` both operands round to
the same binary32 value `2^30`, the ratio is again exactly 1.0 and
nothing is prefetched. -/
theorem c5_counterexample :
    (cudaPrefetchInputs [VectorSplit.ROWS] 8 8 = [false] ∧ (8 : Nat) ≤ 8) ∧
    (cudaPrefetchInputs [VectorSplit.ROWS] (2 ^ 30 - 1) (2 ^ 30) = [false] ∧
      2 ^ 30 - 1 < (2 ^ 30 : Nat)) := by
  have hr1 : roundF 1 = 1 := by
    have h := toFloatQ_exact 1 (by norm_num)
    simpa [toFloatQ] using h
  constructor
  · refine ⟨?_, le_refl 8⟩
    unfold cudaPrefetchInputs
    rw [if_neg]
    · rfl
    · rintro ⟨-, hcon⟩
      rw [floatDivQ, toFloatQ_exact 8 (by norm_num)] at hcon
      rw [show ((8 : ℕ) : ℚ) / ((8 : ℕ) : ℚ) = 1 by norm_num, hr1] at hcon
      exact absurd hcon (by norm_num)
  · refine ⟨?_, by norm_num⟩
    unfold cudaPrefetchInputs
    rw [if_neg]
    · rfl
    · rintro ⟨-, hcon⟩
      rw [floatDivQ, toFloatQ_pow30_sub_one, toFloatQ_pow30] at hcon
      rw [div_self (by push_cast; norm_num), hr1] at hcon
      exact absurd hcon (by norm_num)

/-- C5 (amended): with the accelerator configured, a positive budget, and
`memRequired` and `budget` both at most `2^24` (the range where binary32
conversion of the operands is exact), row-split inputs are prefetched iff
`memRequired` is strictly below `budget`: the code requires the
single-precision ratio to be `< 1.0`, which at `memRequired = budget` is
exactly 1.0, and which rounding also pins to 1.0 for `memRequired` within
half an ulp below a larger budget. Inputs with split `NONE` are never
prefetched, under no condition on the sizes. -/
theorem c5_cuda_prefetch (splits : List VectorSplit) (memRequired budget : Nat)
    (hb0 : 0 < budget) (hm : memRequired ≤ 2 ^ 24) (hb : budget ≤ 2 ^ 24) :
    (memRequired < budget →
      cudaPrefetchInputs splits memRequired budget
        = splits.map (fun s => decide (s = VectorSplit.ROWS))) ∧
    (budget ≤ memRequired →
      cudaPrefetchInputs splits memRequired budget = splits.map (fun _ => false)) ∧
    (∀ (i : Nat) (h : i < splits.length), splits.get ⟨i, h⟩ = VectorSplit.NONE →
      (cudaPrefetchInputs splits memRequired budget).getD i false = false) := by
  have hbq : (0 : ℚ) < (budget : ℚ) := by exact_mod_cast hb0
  have hmex : toFloatQ memRequired = memRequired := toFloatQ_exact _ hm
  have hbex : toFloatQ budget = budget := toFloatQ_exact _ hb
  refine ⟨?_, ?_, ?_⟩
  · intro hlt
    unfold cudaPrefetchInputs
    rw [if_pos]
    refine ⟨hb0, ?_⟩
    rw [floatDivQ, hmex, hbex]
    rcases Nat.eq_zero_or_pos memRequired with rfl | hm0
    · simp only [Nat.cast_zero, zero_div]
      rw [show roundF 0 = 0 by simp [roundF]]
      norm_num
    · apply roundF_lt_one
      · positivity
      · rw [div_le_iff₀ hbq,
          show (1 - 2 ^ (-24 : ℤ)) * (budget : ℚ)
            = budget - budget * 2 ^ (-24 : ℤ) by ring]
        have h1 : (memRequired : ℚ) + 1 ≤ (budget : ℚ) := by exact_mod_cast hlt
        have h2q : (budget : ℚ) ≤ 16777216 := by exact_mod_cast hb
        have h3 : (budget : ℚ) * 2 ^ (-24 : ℤ) ≤ 1 := by
          calc (budget : ℚ) * 2 ^ (-24 : ℤ) ≤ 16777216 * 2 ^ (-24 : ℤ) :=
                mul_le_mul_of_nonneg_right h2q (by positivity)
            _ = 1 := by norm_num
        linarith
  · intro hge
    unfold cudaPrefetchInputs
    rw [if_neg]
    rintro ⟨-, hcon⟩
    rw [floatDivQ, hmex, hbex] at hcon
    have hone : 1 ≤ roundF ((memRequired : ℚ) / budget) := by
      apply roundF_ge_one
      rw [le_div_iff₀ hbq, one_mul]
      exact_mod_cast hge
    linarith
  · intro i h hNone
    rw [List.get_eq_getElem] at hNone
    unfold cudaPrefetchInputs
    split
    · rw [List.getD_eq_getElem?_getD, List.getElem?_map,
        List.getElem?_eq_getElem h, hNone]
      rfl
    · rw [List.getD_eq_getElem?_getD, List.getElem?_map,
        List.getElem?_eq_getElem h]
      rfl

/-- Witness for C5 at concrete inputs: one `ROWS` and one `NONE` input,
3 bytes required against a budget of 8 (both exactly representable):
exactly the `ROWS` input is prefetched, and the `NONE` input is not. -/
theorem c5_cuda_prefetch_witness :
    cudaPrefetchInputs [VectorSplit.ROWS, VectorSplit.NONE] 3 8 = [true, false] ∧
    (cudaPrefetchInputs [VectorSplit.ROWS, VectorSplit.NONE] 3 8).getD 1 false
      = false := by
  have h := c5_cuda_prefetch [VectorSplit.ROWS, VectorSplit.NONE] 3 8 (by norm_num)
    (by norm_num) (by norm_num)
  exact ⟨by rw [h.1 (by norm_num)]; rfl, h.2.2 1 (by norm_num) rfl⟩

/-- C3: at the failing input — the CPU-info source cannot be opened — the
probe produces no topology at all (the source prints a diagnostic and then
reads from the NULL stream, undefined behavior), while the fallback the
specification prescribes is a concrete nonempty topology (shown for a
reported concurrent thread count of 4). -/
theorem c3_missing_cpuinfo :
    get_topology_io none = none ∧
    topologyFallback 4 = ([0, 0, 0, 0], [0, 1, 2, 3]) :=
  ⟨rfl, by decide⟩

theorem getD_map_lt {α : Type} (f : α → Nat) (l : List α) (i : Nat) (h : i < l.length) :
    (l.map f).getD i 0 = f l[i] := by
  rw [List.getD_eq_getElem?_getD, List.getElem?_map, List.getElem?_eq_getElem h]
  rfl

theorem getD_concat_len (A : List Nat) (x : Nat) (n : Nat) (h : n = A.length) :
    (A ++ [x]).getD n 0 = x := by
  subst h
  rw [List.getD_eq_getElem?_getD, List.getElem?_concat_length]
  rfl

theorem found_eq_zero_iff (done : List CpuRecord) (r : CpuRecord) :
    ((List.range done.length).countP
        (fun i => decide ((done.map (fun x => x.coreId)).getD i 0 = r.coreId ∧
          (done.map (fun x => x.physicalId) ++ [r.physicalId]).getD i 0 = r.physicalId)) = 0)
      ↔ (r.physicalId, r.coreId) ∉ done.map (fun x => (x.physicalId, x.coreId)) := by
  rw [List.countP_eq_zero]
  constructor
  · intro hall hmem
    obtain ⟨x, hx, hpair⟩ := List.mem_map.mp hmem
    obtain ⟨n, rfl⟩ := List.mem_iff_get.mp hx
    have hn := n.isLt
    refine hall n.val (List.mem_range.mpr hn) ?_
    rw [decide_eq_true_iff]
    have h1 : (done.map (fun x => x.coreId)).getD n.val 0 = (done.get n).coreId := by
      rw [getD_map_lt _ _ _ hn]
      rfl
    have h2 : (done.map (fun x => x.physicalId) ++ [r.physicalId]).getD n.val 0
        = (done.get n).physicalId := by
      rw [List.getD_eq_getElem?_getD,
        List.getElem?_append_left (by rw [List.length_map]; exact hn),
        List.getElem?_map, List.getElem?_eq_getElem hn]
      rfl
    rw [h1, h2]
    exact ⟨congrArg Prod.snd hpair, congrArg Prod.fst hpair⟩
  · intro hnot i hi hp
    rw [List.mem_range] at hi
    rw [decide_eq_true_iff] at hp
    apply hnot
    refine List.mem_map.mpr ⟨done.get ⟨i, hi⟩, List.get_mem done i hi, ?_⟩
    have h1 : (done.map (fun x => x.coreId)).getD i 0 = (done.get ⟨i, hi⟩).coreId := by
      rw [getD_map_lt _ _ _ hi]
      rfl
    have h2 : (done.map (fun x => x.physicalId) ++ [r.physicalId]).getD i 0
        = (done.get ⟨i, hi⟩).physicalId := by
      rw [List.getD_eq_getElem?_getD,
        List.getElem?_append_left (by rw [List.length_map]; exact hi),
        List.getElem?_map, List.getElem?_eq_getElem hi]
      rfl
    rw [h1] at hp
    rw [h2] at hp
    rw [hp.2, hp.1]

theorem getTopologyLoop_spec (records : List CpuRecord) :
    ∀ (done : List CpuRecord) (uniq : List Nat),
    getTopologyLoop records (done.map (fun x => x.processor))
        (done.map (fun x => x.physicalId)) (done.map (fun x => x.coreId)) uniq done.length
      = (done.map (fun x => x.physicalId) ++ records.map (fun x => x.physicalId),
         uniq ++ uniqueThreadsSpec records (done.map (fun x => (x.physicalId, x.coreId)))) := by
  induction records with
  | nil =>
    intro done uniq
    simp [getTopologyLoop, uniqueThreadsSpec]
  | cons r rest ih =>
    intro done uniq
    rw [getTopologyLoop]
    have hidxp : (done.map (fun x => x.physicalId) ++ [r.physicalId]).getD done.length 0
        = r.physicalId := getD_concat_len _ _ _ (by simp)
    have hidxh : (done.map (fun x => x.processor) ++ [r.processor]).getD done.length 0
        = r.processor := getD_concat_len _ _ _ (by simp)
    simp only [hidxp, hidxh]
    rw [uniqueThreadsSpec]
    have hhw : done.map (fun x => x.processor) ++ [r.processor]
        = (done ++ [r]).map (fun x => x.processor) := by simp
    have hph : done.map (fun x => x.physicalId) ++ [r.physicalId]
        = (done ++ [r]).map (fun x => x.physicalId) := by simp
    have hco : done.map (fun x => x.coreId) ++ [r.coreId]
        = (done ++ [r]).map (fun x => x.coreId) := by simp
    have hln : done.length + 1 = (done ++ [r]).length := by simp
    by_cases hmem : (r.physicalId, r.coreId) ∈ done.map (fun x => (x.physicalId, x.coreId))
    · rw [if_neg (fun hz => absurd hmem ((found_eq_zero_iff done r).mp hz)), if_pos hmem,
        hhw, hph, hco, hln, ih (done ++ [r])]
      simp
    · rw [if_pos ((found_eq_zero_iff done r).mpr hmem), if_neg hmem,
        hhw, hph, hco, hln, ih (done ++ [r])]
      simp

/-- C2: on every CPU-info record stream, `get_topology` reports
`physical_ids` as the sockets of the hardware threads in record order, and
appends hardware thread `i` to `unique_threads` iff no earlier processor
record has the same `(physical id, core id)` pair (in record order, which
is what `uniqueThreadsSpec` expresses); in particular the stream with 4
processors on one socket and core ids 0,0,1,1 yields
`physical_ids = [0,0,0,0]` and `unique_threads = [0,2]`. -/
theorem c2_topology (records : List CpuRecord) :
    (get_topology records).1 = records.map (fun r => r.physicalId) ∧
    (get_topology records).2 = uniqueThreadsSpec records [] ∧
    get_topology [⟨0, 0, 0⟩, ⟨1, 0, 0⟩, ⟨2, 0, 1⟩, ⟨3, 0, 1⟩] = ([0, 0, 0, 0], [0, 2]) := by
  have h := getTopologyLoop_spec records [] []
  simp only [List.map_nil, List.length_nil, List.nil_append] at h
  rw [get_topology, h]
  exact ⟨rfl, rfl, by decide⟩

theorem scanl_ne_nil {α β : Type} (f : α → β → α) (b : α) (l : List β) :
    List.scanl f b l ≠ [] := by
  cases l with
  | nil => simp [List.scanl_nil]
  | cons x t => rw [List.scanl_cons]; simp

theorem getLast?_cons_of_ne_nil {α : Type} (a : α) (l : List α) (h : l ≠ []) :
    (a :: l).getLast? = l.getLast? := by
  cases l with
  | nil => exact absurd rfl h
  | cons b t => simp

theorem scanl_add_getLast? (l : List Nat) : ∀ a : Nat,
    (List.scanl (· + ·) a l).getLast? = some (a + l.sum) := by
  induction l with
  | nil => intro a; simp [List.scanl_nil]
  | cons x t ih =>
    intro a
    rw [List.scanl_cons, List.singleton_append,
      getLast?_cons_of_ne_nil _ _ (scanl_ne_nil _ _ _), ih (a + x)]
    simp [Nat.add_assoc]

theorem scanl_add_head? (l : List Nat) (a : Nat) :
    (List.scanl (· + ·) a l).head? = some a := by
  cases l with
  | nil => simp [List.scanl_nil]
  | cons x t => rw [List.scanl_cons]; simp

theorem scanl_add_chain' (l : List Nat) : ∀ a : Nat,
    (List.scanl (· + ·) a l).Chain' (· ≤ ·) := by
  induction l with
  | nil => intro a; simp [List.scanl_nil]
  | cons x t ih =>
    intro a
    rw [List.scanl_cons, List.singleton_append, List.chain'_cons']
    refine ⟨?_, ih (a + x)⟩
    intro y hy
    rw [scanl_add_head? t (a + x)] at hy
    rw [← Option.mem_some_iff.mp hy]
    exact Nat.le_add_right a x

theorem diffSum_telescope : ∀ (l : List Nat) (a : Nat),
    List.Chain' (· ≤ ·) (a :: l) →
    (((a :: l).zip l).map (fun p => p.2 - p.1)).sum + a = ((a :: l).getLast?).getD 0 := by
  intro l
  induction l with
  | nil => intro a _; simp
  | cons b t ih =>
    intro a hch
    have hab := (List.chain'_cons.mp hch).1
    have h2 := ih b (List.chain'_cons.mp hch).2
    rw [List.getLast?_cons_cons]
    simp only [List.zip_cons_cons, List.map_cons, List.sum_cons]
    omega

theorem sum_flatten_nat (ll : List (List Nat)) : ll.flatten.sum = (ll.map List.sum).sum := by
  induction ll with
  | nil => simp
  | cons x t ih => simp [ih]

theorem perRowNNZ_sum {VT : Type} (f : CSRFrag VT) (h : f.WF) :
    (perRowNNZ f).sum = f.nnz := by
  obtain ⟨hlen, hhead, hchain, hlast, hcols⟩ := h
  cases hro : f.rowOffsets with
  | nil => rw [hro] at hhead; simp at hhead
  | cons a l =>
    rw [hro] at hhead hchain hlast
    have ha : a = 0 := by simpa using hhead
    subst ha
    have ht := diffSum_telescope l 0 hchain
    rw [hlast] at ht
    unfold perRowNNZ
    rw [hro]
    simpa using ht

theorem perRowNNZ_length {VT : Type} (f : CSRFrag VT)
    (h : f.rowOffsets.length = f.numRows + 1) : (perRowNNZ f).length = f.numRows := by
  unfold perRowNNZ
  rw [List.length_map, List.length_zip, List.length_tail, h]
  omega

/-- C1 counterexample to the claim as stated: the CSR `combineOutputs`
specialization has an empty body; invoked on a pipeline with one CSR
output combined by `ROWS` whose final slot is still null, it returns every
slot unchanged — it builds no concatenated CSR matrix at all. -/
theorem c1_counterexample :
    combineOutputsCSR ([none] : List (Option (CSRFrag Int))) [none] 1 [VectorCombine.ROWS]
      = ([none], [none]) := rfl

/-- C1 (amended): the scheduler's `combineOutputs` for CSR outputs is a
no-op that returns the output slots unchanged; the CSR `ROWS`
concatenation itself is performed by the vectorized data sink (modelled
from the spec as `csrRowsCombine`), and for well-formed per-task
fragments it sizes the final value and column-index arrays by the sum of
per-task `nnz`, holds each task's values and column indices in its slot,
and builds `rowOffsets` as the prefix sum of per-row nnz, so the final
row-offset array has length `R + 1`, ends at the sum of per-task `nnz`,
and is monotone nondecreasing. -/
theorem c1_csr_combine {VT : Type} (res res_cuda : List (Option (CSRFrag VT)))
    (n : Nat) (combines : List VectorCombine) (tasks : List (CSRFrag VT))
    (hwf : ∀ f ∈ tasks, f.WF) :
    combineOutputsCSR res res_cuda n combines = (res, res_cuda) ∧
    (csrRowsCombine tasks).values.length = (tasks.map CSRFrag.nnz).sum ∧
    (csrRowsCombine tasks).colIdxs.length = (tasks.map CSRFrag.nnz).sum ∧
    (∀ pre f post, tasks = pre ++ f :: post →
      ((csrRowsCombine tasks).values.drop ((pre.map CSRFrag.nnz).sum)).take f.nnz
          = f.values ∧
      ((csrRowsCombine tasks).colIdxs.drop ((pre.map CSRFrag.nnz).sum)).take f.nnz
          = f.colIdxs) ∧
    (csrRowsCombine tasks).rowOffsets.length
        = (tasks.map (fun t => t.numRows)).sum + 1 ∧
    (csrRowsCombine tasks).rowOffsets.getLast? = some ((tasks.map CSRFrag.nnz).sum) ∧
    (csrRowsCombine tasks).rowOffsets.Chain' (· ≤ ·) := by
  have hcols : ∀ f ∈ tasks, f.colIdxs.length = f.values.length :=
    fun f hf => (hwf f hf).2.2.2.2
  refine ⟨rfl, ?_, ?_, ?_, ?_, ?_, ?_⟩
  · simp only [csrRowsCombine, List.length_flatten, List.map_map]
    exact congrArg List.sum (List.map_congr_left (fun f _ => rfl))
  · simp only [csrRowsCombine, List.length_flatten, List.map_map]
    exact congrArg List.sum (List.map_congr_left (fun f hf => hcols f hf))
  · intro pre f post htasks
    subst htasks
    have hpre_v : ((pre.map (fun t => t.values)).flatten).length
        = (pre.map CSRFrag.nnz).sum := by
      simp only [List.length_flatten, List.map_map]
      exact congrArg List.sum (List.map_congr_left (fun g _ => rfl))
    have hpre_c : ((pre.map (fun t => t.colIdxs)).flatten).length
        = (pre.map CSRFrag.nnz).sum := by
      simp only [List.length_flatten, List.map_map]
      exact congrArg List.sum
        (List.map_congr_left (fun g hg => hcols g (List.mem_append_left _ hg)))
    constructor
    · simp only [csrRowsCombine, List.map_append, List.map_cons, List.flatten_append,
        List.flatten_cons]
      rw [List.drop_left' hpre_v]
      exact List.take_left' rfl
    · simp only [csrRowsCombine, List.map_append, List.map_cons, List.flatten_append,
        List.flatten_cons]
      rw [List.drop_left' hpre_c]
      exact List.take_left'
        (hcols f (List.mem_append_right _ (List.mem_cons_self f post)))
  · simp only [csrRowsCombine, List.length_scanl, List.length_flatten, List.map_map]
    congr 1
    rw [List.map_congr_left (fun f hf => by
      simp only [Function.comp]
      exact perRowNNZ_length f (hwf f hf).1)]
  · simp only [csrRowsCombine]
    rw [scanl_add_getLast?, sum_flatten_nat, List.map_map]
    rw [List.map_congr_left (fun f hf => by
      simp only [Function.comp]
      exact perRowNNZ_sum f (hwf f hf))]
    simp
  · exact scanl_add_chain' _ 0

/-- Witness for C1 at the specification's 5x4 CSR scenario split into two
per-task fragments: the second task's values land in their slot, the final
row-offset array ends at the total `nnz` of 6, and `combineOutputs` itself
leaves an empty slot array unchanged. -/
theorem c1_csr_combine_witness :
    ((csrRowsCombine [csrFragA, csrFragB]).values.drop 3).take 3 = [4, 5, 6] ∧
    (csrRowsCombine [csrFragA, csrFragB]).rowOffsets.getLast? = some 6 ∧
    combineOutputsCSR ([] : List (Option (CSRFrag Int))) [] 0 [] = ([], []) := by
  have hwf : ∀ f ∈ [csrFragA, csrFragB], f.WF := by
    intro f hf
    simp only [List.mem_cons, List.not_mem_nil, or_false] at hf
    rcases hf with rfl | rfl
    · exact ⟨by decide, by decide, by norm_num [csrFragA, List.chain'_cons],
        by decide, by decide⟩
    · exact ⟨by decide, by decide, by norm_num [csrFragB, List.chain'_cons],
        by decide, by decide⟩
  have h := c1_csr_combine ([] : List (Option (CSRFrag Int))) [] 0 [] [csrFragA, csrFragB] hwf
  refine ⟨?_, ?_, h.1⟩
  · have h4 := (h.2.2.2.1 [csrFragA] csrFragB [] rfl).1
    have e1 : ([csrFragA].map CSRFrag.nnz).sum = 3 := by decide
    have e2 : CSRFrag.nnz csrFragB = 3 := by decide
    have e3 : csrFragB.values = [4, 5, 6] := by decide
    rw [e1, e2, e3] at h4
    exact h4
  · have h6 := h.2.2.2.2.2.1
    have e4 : ([csrFragA, csrFragB].map CSRFrag.nnz).sum = 6 := by decide
    rw [e4] at h6
    exact h6

/-- C9: for `numRows > 0` and an element vector whose length is divisible
by `numRows`, the dense generator returns a matrix with exactly `numRows`
rows, `elements.size / numRows` columns, a full row-major value buffer,
and value `elements[i * numCols + j]` at position `(i, j)`. -/
theorem c9_dense_generate (numRows : Nat) (elements : List Int)
    (h1 : 0 < numRows) (h2 : elements.length % numRows = 0) :
    (denseGenerate numRows elements).numRows = numRows ∧
    (denseGenerate numRows elements).numCols = elements.length / numRows ∧
    (denseGenerate numRows elements).values.length
        = numRows * (elements.length / numRows) ∧
    ∀ i j, i < numRows → j < elements.length / numRows →
      (denseGenerate numRows elements).entry i j
        = elements.getD (i * (elements.length / numRows) + j) 0 := by
  refine ⟨rfl, rfl, ?_, ?_⟩
  · exact (Nat.mul_div_cancel' (Nat.dvd_of_mod_eq_zero h2)).symm
  · intro i j hi hj
    rfl

/-- Witness for C9 at the documentation's example: `genGivenVals(2,
[3,1,4,1,5,9])` is a 2x3 matrix whose entry (1,2) is 9. -/
theorem c9_dense_generate_witness :
    (denseGenerate 2 ([3, 1, 4, 1, 5, 9] : List Int)).numCols = 3 ∧
    (denseGenerate 2 ([3, 1, 4, 1, 5, 9] : List Int)).entry 1 2 = 9 := by
  have h := c9_dense_generate 2 [3, 1, 4, 1, 5, 9] (by norm_num) (by decide)
  constructor
  · rw [h.2.1]
    decide
  · rw [h.2.2.2 1 2 (by norm_num) (by decide)]
    decide

theorem csrGenLoop_cons {VT : Type} [Zero VT] [DecidableEq VT] (numCols : Nat)
    (v : VT) (rest values : List VT) (colIdxs : List Nat) (ros : List (Option Nat))
    (colIdx rowIdx : Nat) :
    csrGenLoop numCols (v :: rest) values colIdxs ros colIdx rowIdx
      = if colIdx + 1 = numCols then
          csrGenLoop numCols rest (if v ≠ 0 then values ++ [v] else values)
            (if v ≠ 0 then colIdxs ++ [colIdx] else colIdxs)
            (ros.set (rowIdx + 1)
              (some (if v ≠ 0 then values ++ [v] else values).length))
            0 (rowIdx + 1)
        else
          csrGenLoop numCols rest (if v ≠ 0 then values ++ [v] else values)
            (if v ≠ 0 then colIdxs ++ [colIdx] else colIdxs) ros (colIdx + 1) rowIdx := rfl

theorem csrGenLoop_row {VT : Type} [Zero VT] [DecidableEq VT] (numCols : Nat) :
    ∀ (row rest values : List VT) (colIdxs : List Nat) (ros : List (Option Nat))
      (c rowIdx : Nat), row ≠ [] → c + row.length = numCols →
    csrGenLoop numCols (row ++ rest) values colIdxs ros c rowIdx
      = csrGenLoop numCols rest (values ++ row.filter (fun v => decide (v ≠ 0)))
          (colIdxs ++ nzColsFrom c row)
          (ros.set (rowIdx + 1)
            (some (values.length + (row.filter (fun v => decide (v ≠ 0))).length)))
          0 (rowIdx + 1) := by
  intro row
  induction row with
  | nil => intro rest values colIdxs ros c rowIdx hne _; exact absurd rfl hne
  | cons v r ih =>
    intro rest values colIdxs ros c rowIdx _ hlen
    cases r with
    | nil =>
      have hc : c + 1 = numCols := by simpa using hlen
      rw [List.cons_append, List.nil_append, csrGenLoop_cons, if_pos hc]
      by_cases hv : v = 0
      · subst hv
        simp [nzColsFrom]
      · simp [hv, nzColsFrom]
    | cons w t =>
      have hlen2 : (c + 1) + (w :: t).length = numCols := by
        simp only [List.length_cons] at hlen ⊢
        omega
      have hcne : ¬ (c + 1 = numCols) := by
        simp only [List.length_cons] at hlen
        omega
      have hne2 : (w :: t : List VT) ≠ [] := by simp
      rw [List.cons_append, csrGenLoop_cons, if_neg hcne]
      rw [ih rest _ _ _ _ _ hne2 hlen2]
      by_cases hv : v = 0
      · subst hv
        simp [nzColsFrom, List.filter_cons]
      · simp [hv, nzColsFrom, List.filter_cons, List.append_assoc, Nat.add_assoc,
          Nat.add_comm, Nat.add_left_comm]

theorem nzColsMod_congr {VT : Type} [Zero VT] [DecidableEq VT] (numCols : Nat) :
    ∀ (l : List VT) (p q : Nat), p % numCols = q % numCols →
    nzColsMod numCols p l = nzColsMod numCols q l := by
  intro l
  induction l with
  | nil => intros; rfl
  | cons v r ih =>
    intro p q hpq
    simp only [nzColsMod, hpq]
    rw [ih (p + 1) (q + 1) (by rw [Nat.add_mod, hpq, ← Nat.add_mod])]

theorem nzColsMod_split {VT : Type} [Zero VT] [DecidableEq VT] (numCols : Nat) :
    ∀ (row rest : List VT) (c : Nat), c + row.length = numCols →
    nzColsMod numCols c (row ++ rest)
      = nzColsFrom c row ++ nzColsMod numCols 0 rest := by
  intro row
  induction row with
  | nil =>
    intro rest c hc
    have hc2 : c = numCols := by simpa using hc
    subst hc2
    simp only [List.nil_append, nzColsFrom]
    exact nzColsMod_congr c rest c 0 (by simp [Nat.mod_self])
  | cons v r ih =>
    intro rest c hc
    have hlt : c < numCols := by
      simp only [List.length_cons] at hc
      omega
    simp only [List.cons_append, nzColsMod, nzColsFrom, Nat.mod_eq_of_lt hlt,
      List.append_eq]
    rw [ih rest (c + 1) (by simp only [List.length_cons] at hc; omega)]
    simp [List.append_assoc]

theorem csrGenLoop_rows {VT : Type} [Zero VT] [DecidableEq VT] (numCols : Nat) :
    ∀ (n : Nat) (elements values : List VT) (colIdxs : List Nat)
      (ros : List (Option Nat)) (rowIdx : Nat),
    0 < numCols → elements.length = n * numCols →
    csrGenLoop numCols elements values colIdxs ros 0 rowIdx
      = (values ++ elements.filter (fun v => decide (v ≠ 0)),
         colIdxs ++ nzColsMod numCols 0 elements,
         setOffsets numCols n ros rowIdx values.length elements) := by
  intro n
  induction n with
  | zero =>
    intro elements values colIdxs ros rowIdx _ hlen
    have he : elements = [] := List.eq_nil_of_length_eq_zero (by simpa using hlen)
    subst he
    simp [csrGenLoop, setOffsets, nzColsMod]
  | succ n ihn =>
    intro elements values colIdxs ros rowIdx hnc hlen
    rw [Nat.succ_mul] at hlen
    have hrow : (elements.take numCols).length = numCols := by
      rw [List.length_take]
      omega
    have hrest : (elements.drop numCols).length = n * numCols := by
      rw [List.length_drop]
      omega
    have hne : elements.take numCols ≠ [] := by
      intro hnil
      rw [hnil] at hrow
      simp at hrow
      omega
    conv_lhs => rw [← List.take_append_drop numCols elements]
    rw [csrGenLoop_row numCols _ _ _ _ _ _ _ hne (by rw [Nat.zero_add]; exact hrow)]
    rw [ihn _ _ _ _ _ hnc hrest]
    simp only [Prod.mk.injEq]
    refine ⟨?_, ?_, ?_⟩
    · conv_rhs => rw [← List.take_append_drop numCols elements]
      rw [List.filter_append, List.append_assoc]
    · conv_rhs => rw [← List.take_append_drop numCols elements]
      rw [nzColsMod_split numCols _ _ 0 (by rw [Nat.zero_add]; exact hrow),
        List.append_assoc]
    · simp only [setOffsets]
      rw [List.length_append]

theorem getD_set_self_opt (l : List (Option Nat)) (i : Nat) (a : Option Nat)
    (h : i < l.length) : (l.set i a).getD i none = a := by
  rw [List.getD_eq_getElem?_getD, List.getElem?_set_self h]
  rfl

theorem getD_set_ne_opt (l : List (Option Nat)) (i j : Nat) (a : Option Nat)
    (h : i ≠ j) : (l.set i a).getD j none = l.getD j none := by
  rw [List.getD_eq_getElem?_getD, List.getElem?_set_ne h, ← List.getD_eq_getElem?_getD]

theorem setOffsets_getD {VT : Type} [Zero VT] [DecidableEq VT] (numCols : Nat) :
    ∀ (n : Nat) (ros : List (Option Nat)) (rowIdx base : Nat) (elements : List VT)
      (j : Nat), rowIdx + n < ros.length →
    (setOffsets numCols n ros rowIdx base elements).getD j none
      = if rowIdx + 1 ≤ j ∧ j ≤ rowIdx + n
        then some (base + ((elements.take ((j - rowIdx) * numCols)).filter
            (fun v => decide (v ≠ 0))).length)
        else ros.getD j none := by
  intro n
  induction n with
  | zero =>
    intro ros rowIdx base elements j _
    rw [if_neg (by omega)]
    rfl
  | succ n ihn =>
    intro ros rowIdx base elements j hlen
    simp only [setOffsets]
    rw [ihn _ _ _ _ j (by rw [List.length_set]; omega)]
    by_cases h1 : rowIdx + 1 + 1 ≤ j ∧ j ≤ rowIdx + 1 + n
    · rw [if_pos h1, if_pos (show rowIdx + 1 ≤ j ∧ j ≤ rowIdx + (n + 1) by omega)]
      have hk : (j - rowIdx) * numCols = numCols + (j - (rowIdx + 1)) * numCols := by
        have h2 : j - rowIdx = (j - (rowIdx + 1)) + 1 := by omega
        rw [h2, Nat.succ_mul, Nat.add_comm]
      rw [hk, List.take_add, List.filter_append, List.length_append, ← Nat.add_assoc]
    · rw [if_neg h1]
      by_cases h2 : j = rowIdx + 1
      · subst h2
        rw [if_pos (by omega)]
        rw [getD_set_self_opt _ _ _ (by omega)]
        have h3 : (rowIdx + 1 - rowIdx) * numCols = numCols := by
          have h4 : rowIdx + 1 - rowIdx = 1 := by omega
          rw [h4, Nat.one_mul]
        rw [h3]
      · rw [if_neg (by omega), getD_set_ne_opt _ _ _ _ (fun hc => h2 hc.symm)]

theorem nzColsFrom_length {VT : Type} [Zero VT] [DecidableEq VT] :
    ∀ (l : List VT) (c : Nat),
    (nzColsFrom c l).length = (l.filter (fun v => decide (v ≠ 0))).length := by
  intro l
  induction l with
  | nil => intro c; rfl
  | cons v r ih =>
    intro c
    by_cases hv : v = 0
    · subst hv
      simp [nzColsFrom, List.filter_cons, ih]
    · simp [nzColsFrom, List.filter_cons, hv, ih]

theorem nzPairs_length {VT : Type} [Zero VT] [DecidableEq VT] :
    ∀ (l : List VT) (c : Nat),
    (nzPairs c l).length = (l.filter (fun v => decide (v ≠ 0))).length := by
  intro l
  induction l with
  | nil => intro c; rfl
  | cons v r ih =>
    intro c
    by_cases hv : v = 0
    · subst hv
      simp [nzPairs, List.filter_cons, ih]
    · simp [nzPairs, List.filter_cons, hv, ih]

theorem filter_zip_nzColsFrom {VT : Type} [Zero VT] [DecidableEq VT] :
    ∀ (l : List VT) (c : Nat),
    (l.filter (fun v => decide (v ≠ 0))).zip (nzColsFrom c l) = nzPairs c l := by
  intro l
  induction l with
  | nil => intro c; rfl
  | cons v r ih =>
    intro c
    simp only [ne_eq, decide_not] at ih
    by_cases hv : v = 0
    · subst hv
      simp [nzColsFrom, nzPairs, List.filter_cons, ih]
    · simp [nzColsFrom, nzPairs, List.filter_cons, hv, ih]

theorem lookupCol_cons {VT : Type} [Zero VT] (v : VT) (c : Nat)
    (rest : List (VT × Nat)) (j : Nat) :
    lookupCol ((v, c) :: rest) j = if c = j then v else lookupCol rest j := rfl

theorem lookupCol_nzPairs_lt {VT : Type} [Zero VT] [DecidableEq VT] :
    ∀ (row : List VT) (c j : Nat), j < c → lookupCol (nzPairs c row) j = 0 := by
  intro row
  induction row with
  | nil => intros; rfl
  | cons v r ih =>
    intro c j hj
    by_cases hv : v = 0
    · subst hv
      simp only [nzPairs]
      rw [if_neg (by simp), List.nil_append]
      exact ih (c + 1) j (by omega)
    · simp only [nzPairs]
      rw [if_pos hv, List.singleton_append, lookupCol_cons, if_neg (by omega)]
      exact ih (c + 1) j (by omega)

theorem lookupCol_nzPairs {VT : Type} [Zero VT] [DecidableEq VT] :
    ∀ (row : List VT) (c j : Nat), c ≤ j → j < c + row.length →
    lookupCol (nzPairs c row) j = row.getD (j - c) 0 := by
  intro row
  induction row with
  | nil =>
    intro c j _ h2
    simp at h2
    omega
  | cons v r ih =>
    intro c j h1 h2
    by_cases hcj : j = c
    · subst hcj
      have hcc : j - j = 0 := by omega
      rw [hcc]
      by_cases hv : v = 0
      · subst hv
        simp only [nzPairs]
        rw [if_neg (by simp), List.nil_append]
        rw [lookupCol_nzPairs_lt r (j + 1) j (by omega)]
        rfl
      · simp only [nzPairs]
        rw [if_pos hv, List.singleton_append, lookupCol_cons, if_pos rfl]
        rfl
    · by_cases hv : v = 0
      · subst hv
        simp only [nzPairs]
        rw [if_neg (by simp), List.nil_append]
        rw [ih (c + 1) j (by omega) (by simp only [List.length_cons] at h2; omega)]
        have hs : j - c = (j - (c + 1)) + 1 := by omega
        rw [hs]
        rfl
      · simp only [nzPairs]
        rw [if_pos hv, List.singleton_append, lookupCol_cons, if_neg (by omega)]
        rw [ih (c + 1) j (by omega) (by simp only [List.length_cons] at h2; omega)]
        have hs : j - c = (j - (c + 1)) + 1 := by omega
        rw [hs]
        rfl

theorem pairs_split {VT : Type} [Zero VT] [DecidableEq VT] (numCols : Nat)
    (row rest : List VT) (hrow : row.length = numCols) :
    ((row ++ rest).filter (fun v => decide (v ≠ 0))).zip
        (nzColsMod numCols 0 (row ++ rest))
      = nzPairs 0 row
        ++ (rest.filter (fun v => decide (v ≠ 0))).zip (nzColsMod numCols 0 rest) := by
  rw [List.filter_append,
    nzColsMod_split numCols row rest 0 (by rw [Nat.zero_add]; exact hrow),
    List.zip_append (by rw [nzColsFrom_length]), filter_zip_nzColsFrom]

theorem pairs_segment {VT : Type} [Zero VT] [DecidableEq VT] (numCols : Nat) :
    ∀ (i n : Nat) (elements : List VT), elements.length = n * numCols → i < n →
    List.take
        (((elements.take ((i + 1) * numCols)).filter (fun v => decide (v ≠ 0))).length
          - ((elements.take (i * numCols)).filter (fun v => decide (v ≠ 0))).length)
        (List.drop
          (((elements.take (i * numCols)).filter (fun v => decide (v ≠ 0))).length)
          ((elements.filter (fun v => decide (v ≠ 0))).zip (nzColsMod numCols 0 elements)))
      = nzPairs 0 ((elements.drop (i * numCols)).take numCols) := by
  intro i
  induction i with
  | zero =>
    intro n elements hlen hn
    obtain ⟨m, rfl⟩ : ∃ m, n = m + 1 := ⟨n - 1, by omega⟩
    rw [Nat.succ_mul] at hlen
    obtain ⟨row, rest, hrl, rfl⟩ :
        ∃ row rest, row.length = numCols ∧ elements = row ++ rest :=
      ⟨elements.take numCols, elements.drop numCols,
        by rw [List.length_take]; omega,
        (List.take_append_drop numCols elements).symm⟩
    simp only [Nat.zero_mul, Nat.zero_add, Nat.one_mul, List.take_zero, List.filter_nil,
      List.length_nil, List.drop_zero, Nat.sub_zero]
    rw [List.take_left' hrl, pairs_split numCols row rest hrl,
      List.take_left' (nzPairs_length row 0)]
  | succ i ihi =>
    intro n elements hlen hn
    obtain ⟨m, rfl⟩ : ∃ m, n = m + 1 := ⟨n - 1, by omega⟩
    rw [Nat.succ_mul] at hlen
    obtain ⟨row, rest, hrl, hrs, rfl⟩ :
        ∃ row rest, row.length = numCols ∧ rest.length = m * numCols
          ∧ elements = row ++ rest :=
      ⟨elements.take numCols, elements.drop numCols,
        by rw [List.length_take]; omega,
        by rw [List.length_drop]; omega,
        (List.take_append_drop numCols elements).symm⟩
    have hidx : (i + 1) * numCols = row.length + i * numCols := by
      rw [Nat.succ_mul, hrl]
      omega
    have hidx2 : (i + 1 + 1) * numCols = row.length + (i + 1) * numCols := by
      rw [Nat.succ_mul (i + 1), hrl]
      omega
    have ht1 : (row ++ rest).take ((i + 1) * numCols) = row ++ rest.take (i * numCols) := by
      rw [hidx, List.take_append]
    have hd1 : (row ++ rest).drop ((i + 1) * numCols) = rest.drop (i * numCols) := by
      rw [hidx, List.drop_append]
    have ht2 : (row ++ rest).take ((i + 1 + 1) * numCols)
        = row ++ rest.take ((i + 1) * numCols) := by
      rw [hidx2, List.take_append]
    rw [pairs_split numCols row rest hrl, ht2, ht1, hd1]
    simp only [List.filter_append, List.length_append]
    rw [Nat.add_sub_add_left, ← nzPairs_length row 0, List.drop_append]
    exact ihi m rest hrs (by omega)

theorem csrGenerate_eq {VT : Type} [Zero VT] [DecidableEq VT] (numRows : Nat)
    (elements : List VT) (hnc : 0 < elements.length / numRows)
    (hlen : elements.length = numRows * (elements.length / numRows)) :
    csrGenerate numRows elements
      = { numRows := numRows, numCols := elements.length / numRows,
          values := elements.filter (fun v => decide (v ≠ 0)),
          colIdxs := nzColsMod (elements.length / numRows) 0 elements,
          rowOffsets := setOffsets (elements.length / numRows) numRows
            ((List.replicate (numRows + 1) (none : Option Nat)).set 0 (some 0))
            0 0 elements } := by
  simp only [csrGenerate]
  rw [csrGenLoop_rows (elements.length / numRows) numRows elements [] [] _ 0 hnc hlen]
  simp

theorem csrGenerate_rowOffsets_getD {VT : Type} [Zero VT] [DecidableEq VT]
    (numRows : Nat) (elements : List VT) (hnc : 0 < elements.length / numRows)
    (hlen : elements.length = numRows * (elements.length / numRows)) (j : Nat)
    (hj : j ≤ numRows) :
    (csrGenerate numRows elements).rowOffsets.getD j none
      = some (((elements.take (j * (elements.length / numRows))).filter
          (fun v => decide (v ≠ 0))).length) := by
  rw [csrGenerate_eq numRows elements hnc hlen]
  rw [setOffsets_getD _ numRows _ 0 0 elements j (by simp)]
  by_cases hj0 : j = 0
  · subst hj0
    rw [if_neg (by omega)]
    rw [getD_set_self_opt _ _ _ (by simp)]
    simp
  · rw [if_pos (by omega)]
    simp

/-- C10 counterexample to the claim as stated: the claim quantifies over
every element vector whose length is divisible by `numRows`, including the
empty one; for `numRows = 1` and `elements = []` the generator computes
`numCols = 0`, the element loop never runs, and `rowOffsets[1]` (which is
`rowOffsets[numRows]`) is never written — the buffer is created without
zero-initialization, so the cell stays uninitialized (`none`) instead of
holding the nonzero count 0. -/
theorem c10_counterexample :
    (1 : Nat) > 0 ∧ ([] : List Int).length % 1 = 0 ∧
    (csrGenerate 1 ([] : List Int)).rowOffsets.getD 1 none = none ∧
    (csrGenerate 1 ([] : List Int)).rowOffsets.getD 1 none
      ≠ some ((([] : List Int).filter (fun v => decide (v ≠ 0))).length) := by decide

/-- C10 (amended): for every `numRows > 0` and NONEMPTY element vector
whose length is divisible by `numRows`, the generated CSR matrix satisfies
the CSR invariants: `rowOffsets[0] = 0`, `rowOffsets` is monotone
nondecreasing (each adjacent pair of cells is initialized and ordered),
`rowOffsets[numRows]` is the number of nonzero elements, the value array
is exactly the nonzero elements in row-major order, the column-index
array holds their column indices (`position % numCols`), and every entry
agrees with the dense generator on the same input. -/
theorem c10_csr_generate {VT : Type} [Zero VT] [DecidableEq VT] (numRows : Nat)
    (elements : List VT) (h1 : 0 < numRows) (h2 : elements.length % numRows = 0)
    (h3 : elements ≠ []) :
    (csrGenerate numRows elements).rowOffsets.getD 0 none = some 0 ∧
    (∀ k, k < numRows → ∃ a b,
      (csrGenerate numRows elements).rowOffsets.getD k none = some a ∧
      (csrGenerate numRows elements).rowOffsets.getD (k + 1) none = some b ∧ a ≤ b) ∧
    (csrGenerate numRows elements).rowOffsets.getD numRows none
      = some ((elements.filter (fun v => decide (v ≠ 0))).length) ∧
    (csrGenerate numRows elements).values
      = elements.filter (fun v => decide (v ≠ 0)) ∧
    (csrGenerate numRows elements).colIdxs
      = nzColsMod (elements.length / numRows) 0 elements ∧
    (∀ i j, i < numRows → j < elements.length / numRows →
      (csrGenerate numRows elements).entry i j
        = (denseGenerate numRows elements).entry i j) := by
  have hdvd := Nat.dvd_of_mod_eq_zero h2
  have hlen : elements.length = numRows * (elements.length / numRows) :=
    (Nat.mul_div_cancel' hdvd).symm
  have hpos : 0 < elements.length := List.length_pos.mpr h3
  have hnc : 0 < elements.length / numRows := by
    rcases Nat.eq_zero_or_pos (elements.length / numRows) with h | h
    · rw [h, Nat.mul_zero] at hlen
      omega
    · exact h
  have hro : ∀ j, j ≤ numRows →
      (csrGenerate numRows elements).rowOffsets.getD j none
        = some (((elements.take (j * (elements.length / numRows))).filter
            (fun v => decide (v ≠ 0))).length) :=
    fun j hj => csrGenerate_rowOffsets_getD numRows elements hnc hlen j hj
  have hv : (csrGenerate numRows elements).values
      = elements.filter (fun v => decide (v ≠ 0)) := by
    rw [csrGenerate_eq numRows elements hnc hlen]
  have hc : (csrGenerate numRows elements).colIdxs
      = nzColsMod (elements.length / numRows) 0 elements := by
    rw [csrGenerate_eq numRows elements hnc hlen]
  refine ⟨?_, ?_, ?_, hv, hc, ?_⟩
  · rw [hro 0 (by omega)]
    simp
  · intro k hk
    refine ⟨_, _, hro k (by omega), hro (k + 1) (by omega), ?_⟩
    have hsm : (k + 1) * (elements.length / numRows)
        = k * (elements.length / numRows) + elements.length / numRows :=
      Nat.succ_mul k _
    rw [hsm, List.take_add, List.filter_append, List.length_append]
    exact Nat.le_add_right _ _
  · rw [hro numRows (by omega), List.take_of_length_le (le_of_eq hlen)]
  · intro i j hi hj
    have hrowlen : ((elements.drop (i * (elements.length / numRows))).take
        (elements.length / numRows)).length = elements.length / numRows := by
      rw [List.length_take, List.length_drop]
      have hmul : (i + 1) * (elements.length / numRows)
          ≤ numRows * (elements.length / numRows) :=
        Nat.mul_le_mul_right _ (by omega)
      rw [Nat.succ_mul] at hmul
      omega
    simp only [CSRMat.entry, hro i (by omega), hro (i + 1) (by omega), hv, hc]
    rw [pairs_segment (elements.length / numRows) i numRows elements hlen hi]
    rw [lookupCol_nzPairs _ 0 j (Nat.zero_le j) (by rw [Nat.zero_add, hrowlen]; exact hj)]
    simp only [Nat.sub_zero, denseGenerate, DenseMat.entry]
    rw [List.getD_eq_getElem?_getD, List.getD_eq_getElem?_getD,
      List.getElem?_take_of_lt hj, List.getElem?_drop]

/-- Witness for C10 at the specification's 5x4 CSR scenario: the value
array is `[1..6]`, `rowOffsets[5] = 6`, and the CSR entry `(1,3)` agrees
with the dense generator. -/
theorem c10_csr_generate_witness :
    (csrGenerate 5 csrExampleElements).values = [1, 2, 3, 4, 5, 6] ∧
    (csrGenerate 5 csrExampleElements).rowOffsets.getD 5 none = some 6 ∧
    (csrGenerate 5 csrExampleElements).entry 1 3
      = (denseGenerate 5 csrExampleElements).entry 1 3 := by
  have h := c10_csr_generate 5 csrExampleElements (by norm_num) (by decide) (by decide)
  refine ⟨?_, ?_, ?_⟩
  · rw [h.2.2.2.1]
    decide
  · rw [h.2.2.1]
    decide
  · exact h.2.2.2.2.2 1 3 (by norm_num) (by decide)

end Daphne
